import Mathlib

/-!
Verification of the intrusive singly-linked FIFO list of `slist_template.h`.

The C template is instantiated per element type `T`; we model one instance
with payload type `α`.  Caller-owned node storage is modelled as a heap
indexed by node addresses (`Nat`): each address carries a payload and a
successor link (`Option Nat`, `none` being `NULL`).  The list handle is the
head pointer.  The `while` loop of `SLIST_add_##T` and the `for` loop of
`SLIST_FOR_EACH_NODE_PTR` are modelled with explicit fuel, returning `none`
on fuel exhaustion, so that non-termination on corrupt states is observable.
-/

namespace Slist

/-- The state of one list instance: the head pointer declared by
`SLIST_CREATE_LIST`, together with the caller-owned heap of nodes
(`SLIST_DECLARE_NODE_TYPE(T)`: a `data` field of type `T` and a `next`
pointer per node address). -/
structure SList (α : Type) where
  head : Option Nat
  next : Nat → Option Nat
  data : Nat → α

/-- Outcome of the insertion walk inside `SLIST_add_##T`: either the node
being inserted was found strictly before the last node (the early
`return`), or the walk reached the last node `t` (the one whose `next` is
`NULL`). -/
inductive WalkResult where
  | found : WalkResult
  | tail : Nat → WalkResult
deriving DecidableEq

/-- The `while (curr->next != NULL)` loop of `SLIST_add_##T`, starting at
`curr`, looking for `node` by pointer identity.  `none` means the fuel ran
out (the C loop would still be running). -/
def walk (nx : Nat → Option Nat) (node : Nat) : Nat → Nat → Option WalkResult
  | _, 0 => none
  | curr, fuel + 1 =>
    match nx curr with
    | none => some (WalkResult.tail curr)
    | some c =>
      if curr = node then some WalkResult.found
      else walk nx node c fuel

/-- `SLIST_add_##T(head, node)` from `SLIST_DEFINE_ADD_NODE_FUNC(T)`.
If the list is empty the node becomes the head; otherwise the walk either
finds `node` before the last node and returns with no write, or reaches the
last node `t` and executes `curr->next = node`.  On every path that falls
out of the `if`/`else`, the trailing `node->next = NULL` then runs (modelled
by the outermost update of `next` at `node`). -/
def SLIST_add {α : Type} (s : SList α) (node : Nat) (fuel : Nat) :
    Option (SList α) :=
  match s.head with
  | none =>
    some { s with
      head := some node
      next := fun i => if i = node then none else s.next i }
  | some h =>
    match walk s.next node h fuel with
    | none => none
    | some WalkResult.found => some s
    | some (WalkResult.tail t) =>
      some { s with
        next := fun i =>
          if i = node then none
          else if i = t then some node
          else s.next i }

/-- `SLIST_FOR_EACH_NODE_PTR(T, head, node)`: the sequence of node pointers
visited by `for (node = head; node != NULL; node = node->next)`, with fuel;
`none` means the traversal did not reach `NULL` within the fuel. -/
def SLIST_FOR_EACH_NODE_PTR (nx : Nat → Option Nat) :
    Option Nat → Nat → Option (List Nat)
  | none, _ => some []
  | some _, 0 => none
  | some h, fuel + 1 =>
    (SLIST_FOR_EACH_NODE_PTR nx (nx h) fuel).map (fun l => h :: l)

/-- `SLIST_CREATE_LIST(T, head)`: a fresh handle whose head is `NULL`, over
an arbitrary caller-owned heap. -/
def SLIST_CREATE_LIST {α : Type} (nx : Nat → Option Nat) (d : Nat → α) :
    SList α :=
  { head := none, next := nx, data := d }

/-- A sequence of `SLIST_add` calls, in order, each with the given fuel. -/
def addAll {α : Type} (s : SList α) (ns : List Nat) (fuel : Nat) :
    Option (SList α) :=
  match ns with
  | [] => some s
  | n :: rest =>
    match SLIST_add s n fuel with
    | none => none
    | some s' => addAll s' rest fuel

/-- Representation predicate: the pointer `o` spells out exactly the chain
`l` of node addresses, ending in `NULL`. -/
def isChain (nx : Nat → Option Nat) : Option Nat → List Nat → Prop
  | o, [] => o = none
  | o, a :: rest => o = some a ∧ isChain nx (nx a) rest

/-- The last address of the nonempty chain `a :: rest`. -/
def lastFrom (a : Nat) : List Nat → Nat
  | [] => a
  | b :: rest => lastFrom b rest

/-- The abstract effect of one successful insertion on the membership
sequence: append unless already a member. -/
def memOrder (l : List Nat) (n : Nat) : List Nat :=
  if n ∈ l then l else l ++ [n]

/-- The abstract membership sequence after inserting `ns` in order into a
list whose membership sequence is `l`. -/
def memberSeq (l : List Nat) : List Nat → List Nat
  | [] => l
  | n :: rest => memberSeq (memOrder l n) rest

/-- A concrete heap whose list spells out the chain `0 → 1`. -/
def twoNodes : SList Nat :=
  { head := some 0
    next := fun i => if i = 0 then some 1 else none
    data := fun i => i }

/-- A concrete heap whose list spells out the chain `0 → 1 → 2`. -/
def threeNodes : SList Nat :=
  { head := some 0
    next := fun i => if i = 0 then some 1 else if i = 1 then some 2 else none
    data := fun i => i }

/-- A concrete heap with chain `0 → 1` in which the free node `9` still
carries a stale `next` pointer into the list, as uninitialized caller
storage may. -/
def staleNode : SList Nat :=
  { head := some 0
    next := fun i => if i = 0 then some 1 else if i = 9 then some 0 else none
    data := fun i => i }

/-- A concrete empty-headed list over a heap whose free nodes carry stale
`next` pointers. -/
def emptyStaleHeap : SList Nat :=
  { head := none
    next := fun _ => some 7
    data := fun i => i }

/-- The last address of a nonempty chain is one of its members. -/
theorem lastFrom_mem : ∀ (rest : List Nat) (a : Nat), lastFrom a rest ∈ a :: rest
  | [], a => by simp [lastFrom]
  | b :: rest, a => by
    simp only [lastFrom]
    exact List.mem_cons_of_mem a (lastFrom_mem rest b)

/-- In a well-formed chain the last node's `next` is `NULL`. -/
theorem isChain_last_none {nx : Nat → Option Nat} :
    ∀ (rest : List Nat) (a : Nat), isChain nx (some a) (a :: rest) →
      nx (lastFrom a rest) = none := by
  intro rest
  induction rest with
  | nil => intro a h; exact h.2
  | cons b rest ih =>
    intro a h
    obtain ⟨-, hb, hrest⟩ := h
    exact ih b ⟨rfl, hrest⟩

/-- `isChain` only inspects the `next` function pointwise. -/
theorem isChain_ext {nx1 nx2 : Nat → Option Nat}
    (hext : ∀ i, nx1 i = nx2 i) :
    ∀ (l : List Nat) (o : Option Nat), isChain nx1 o l → isChain nx2 o l := by
  intro l
  induction l with
  | nil => intro o h; exact h
  | cons a rest ih =>
    intro o h
    exact ⟨h.1, by rw [← hext a]; exact ih (nx1 a) h.2⟩

/-- If a chain is nodup, its last member does not occur strictly before the
end. -/
theorem lastFrom_not_mem_dropLast :
    ∀ (rest : List Nat) (a : Nat), (a :: rest).Nodup →
      lastFrom a rest ∉ (a :: rest).dropLast := by
  intro rest
  induction rest with
  | nil => intro a _ h; simp at h
  | cons b rest ih =>
    intro a hnd h
    rw [List.dropLast_cons₂, List.mem_cons] at h
    rcases h with h | h
    · exact (List.nodup_cons.mp hnd).1 (h ▸ lastFrom_mem rest b)
    · exact ih b (List.nodup_cons.mp hnd).2 h

/-- If `node` occurs strictly before the last node of the chain, the walk
detects it and returns `found`. -/
theorem walk_found {nx : Nat → Option Nat} {node : Nat} :
    ∀ (rest : List Nat) (a fuel : Nat),
      isChain nx (some a) (a :: rest) → rest.length < fuel →
      node ∈ (a :: rest).dropLast →
      walk nx node a fuel = some WalkResult.found := by
  intro rest
  induction rest with
  | nil => intro a fuel _ _ hmem; simp at hmem
  | cons b rest ih =>
    intro a fuel hc hfuel hmem
    obtain ⟨fuel, rfl⟩ : ∃ k, fuel = k + 1 := ⟨fuel - 1, by omega⟩
    obtain ⟨-, hb, hrest⟩ := hc
    rw [List.dropLast_cons₂, List.mem_cons] at hmem
    simp only [walk, hb]
    rcases hmem with rfl | hmem
    · simp
    · by_cases han : a = node
      · simp [han]
      · simp only [if_neg han]
        exact ih b fuel ⟨rfl, hrest⟩ (Nat.lt_of_succ_lt_succ hfuel) hmem

/-- If `node` does not occur strictly before the last node, the walk reaches
the last node and reports it. -/
theorem walk_last {nx : Nat → Option Nat} {node : Nat} :
    ∀ (rest : List Nat) (a fuel : Nat),
      isChain nx (some a) (a :: rest) → rest.length < fuel →
      node ∉ (a :: rest).dropLast →
      walk nx node a fuel = some (WalkResult.tail (lastFrom a rest)) := by
  intro rest
  induction rest with
  | nil =>
    intro a fuel hc hfuel _
    obtain ⟨fuel, rfl⟩ : ∃ k, fuel = k + 1 := ⟨fuel - 1, by omega⟩
    have h2 : nx a = none := hc.2
    simp [walk, h2, lastFrom]
  | cons b rest ih =>
    intro a fuel hc hfuel hmem
    obtain ⟨fuel, rfl⟩ : ∃ k, fuel = k + 1 := ⟨fuel - 1, by omega⟩
    obtain ⟨-, hb, hrest⟩ := hc
    rw [List.dropLast_cons₂, List.mem_cons] at hmem
    push_neg at hmem
    simp only [walk, hb, lastFrom]
    rw [if_neg (Ne.symm hmem.1)]
    exact ih b fuel ⟨rfl, hrest⟩ (Nat.lt_of_succ_lt_succ hfuel) hmem.2

/-- Traversal of a `NULL` pointer yields the empty sequence at any fuel. -/
theorem forEach_none {nx : Nat → Option Nat} (fuel : Nat) :
    SLIST_FOR_EACH_NODE_PTR nx none fuel = some [] := by
  cases fuel <;> rfl

/-- Traversal of a well-formed chain terminates within fuel equal to the
chain length, yielding exactly the chain. -/
theorem traverse_chain {nx : Nat → Option Nat} :
    ∀ (l : List Nat) (o : Option Nat) (fuel : Nat),
      isChain nx o l → l.length ≤ fuel →
      SLIST_FOR_EACH_NODE_PTR nx o fuel = some l := by
  intro l
  induction l with
  | nil =>
    intro o fuel hc _
    rw [show o = none from hc]
    exact forEach_none fuel
  | cons a rest ih =>
    intro o fuel hc hfuel
    rw [List.length_cons] at hfuel
    obtain ⟨fuel, rfl⟩ : ∃ k, fuel = k + 1 := ⟨fuel - 1, by omega⟩
    rw [hc.1]
    simp only [SLIST_FOR_EACH_NODE_PTR]
    rw [ih (nx a) fuel hc.2 (Nat.le_of_succ_le_succ hfuel)]
    rfl

/-- Inserting into an empty list takes the first branch of `SLIST_add`:
the node becomes the head and its `next` is cleared. -/
theorem SLIST_add_empty_eq {α : Type} (s : SList α) (node fuel : Nat)
    (h : s.head = none) :
    SLIST_add s node fuel = some { s with
      head := some node
      next := fun i => if i = node then none else s.next i } := by
  simp [SLIST_add, h]

/-- If the node being inserted occurs strictly before the last node, the
walk hits the early `return` and `SLIST_add` leaves the state untouched. -/
theorem SLIST_add_found_eq {α : Type} (s : SList α) (a : Nat)
    (rest : List Nat) (node fuel : Nat)
    (hc : isChain s.next s.head (a :: rest)) (hfuel : rest.length < fuel)
    (hmem : node ∈ (a :: rest).dropLast) :
    SLIST_add s node fuel = some s := by
  simp [SLIST_add, hc.1, walk_found rest a fuel ⟨rfl, hc.2⟩ hfuel hmem]

/-- If the node being inserted does not occur strictly before the last node,
the walk reaches the last node `t` and `SLIST_add` performs
`t->next = node` followed by `node->next = NULL`. -/
theorem SLIST_add_last_eq {α : Type} (s : SList α) (a : Nat)
    (rest : List Nat) (node fuel : Nat)
    (hc : isChain s.next s.head (a :: rest)) (hfuel : rest.length < fuel)
    (hmem : node ∉ (a :: rest).dropLast) :
    SLIST_add s node fuel = some { s with
      next := fun i =>
        if i = node then none
        else if i = lastFrom a rest then some node
        else s.next i } := by
  simp [SLIST_add, hc.1, walk_last rest a fuel ⟨rfl, hc.2⟩ hfuel hmem]

/-- Appending a fresh node to a well-formed nodup chain, via the update
`t->next = node; node->next = NULL` with `t` the last node, yields the
chain extended by that node. -/
theorem isChain_snoc {nx : Nat → Option Nat} {node : Nat} :
    ∀ (rest : List Nat) (a : Nat), isChain nx (some a) (a :: rest) →
      (a :: rest).Nodup → node ∉ a :: rest →
      isChain (fun i =>
          if i = node then none
          else if i = lastFrom a rest then some node
          else nx i)
        (some a) ((a :: rest) ++ [node]) := by
  intro rest
  induction rest with
  | nil =>
    intro a _ _ hnode
    have han : a ≠ node := fun h => hnode (h ▸ List.mem_singleton_self a)
    refine ⟨rfl, ?_, ?_⟩
    · simp [lastFrom, han]
    · simp [isChain]
  | cons b rest ih =>
    intro a hc hnd hnode
    obtain ⟨-, hb, hrest⟩ := hc
    have han : a ≠ node := fun h => hnode (h ▸ List.mem_cons_self a (b :: rest))
    have hat : a ≠ lastFrom b rest := by
      intro h
      exact (List.nodup_cons.mp hnd).1 (h ▸ lastFrom_mem rest b)
    simp only [lastFrom]
    refine ⟨rfl, ?_⟩
    show isChain _
      (if a = node then none else if a = lastFrom b rest then some node else nx a)
      ((b :: rest) ++ [node])
    rw [if_neg han, if_neg hat, hb]
    exact ih b ⟨rfl, hrest⟩ (List.nodup_cons.mp hnd).2
      (fun h => hnode (List.mem_cons_of_mem a h))

/-- Membership in a nonempty list splits into occurring strictly before the
end or being the last element. -/
theorem mem_iff_dropLast_or_last :
    ∀ (rest : List Nat) (a x : Nat),
      x ∈ a :: rest ↔ x ∈ (a :: rest).dropLast ∨ x = lastFrom a rest := by
  intro rest
  induction rest with
  | nil => intro a x; simp [lastFrom]
  | cons b rest ih =>
    intro a x
    rw [List.dropLast_cons₂]
    have hsplit := ih b x
    simp only [List.mem_cons] at hsplit ⊢
    simp only [lastFrom]
    tauto

/-- One abstract `memOrder` step bounds the length by one more. -/
theorem memOrder_length_le (l : List Nat) (n : Nat) :
    (memOrder l n).length ≤ l.length + 1 := by
  by_cases h : n ∈ l <;> simp [memOrder, h]

/-- The abstract `memOrder` step preserves nodup-ness. -/
theorem memOrder_nodup {l : List Nat} (hnd : l.Nodup) (n : Nat) :
    (memOrder l n).Nodup := by
  by_cases h : n ∈ l
  · simpa [memOrder, h] using hnd
  · rw [memOrder, if_neg h]
    simp [List.nodup_append, hnd, h]

/-- The main step lemma: on any well-formed nodup chain `l`, `SLIST_add`
with fuel at least the chain length succeeds, preserves all payloads, and
produces a well-formed chain spelled out by `memOrder l node`. -/
theorem SLIST_add_chain {α : Type} (s : SList α) (l : List Nat)
    (node fuel : Nat) (hc : isChain s.next s.head l) (hnd : l.Nodup)
    (hfuel : l.length ≤ fuel) :
    ∃ s', SLIST_add s node fuel = some s' ∧
      isChain s'.next s'.head (memOrder l node) ∧ s'.data = s.data := by
  match l with
  | [] =>
    refine ⟨_, SLIST_add_empty_eq s node fuel hc, ?_, rfl⟩
    simp [memOrder, isChain]
  | a :: rest =>
    rw [List.length_cons] at hfuel
    by_cases hdl : node ∈ (a :: rest).dropLast
    · refine ⟨s, SLIST_add_found_eq s a rest node fuel hc hfuel ?_, ?_, rfl⟩
      · exact hdl
      · rw [memOrder, if_pos (List.mem_of_mem_dropLast hdl)]
        exact hc
    · by_cases hl : node ∈ a :: rest
      · have hlast : node = lastFrom a rest :=
          ((mem_iff_dropLast_or_last rest a node).mp hl).resolve_left hdl
        refine ⟨_, SLIST_add_last_eq s a rest node fuel hc hfuel hdl, ?_, rfl⟩
        rw [memOrder, if_pos hl]
        refine isChain_ext (fun i => ?_) (a :: rest) s.head hc
        by_cases hin : i = node
        · subst hin
          rw [hlast, isChain_last_none rest a ⟨rfl, hc.2⟩]
          simp
        · simp only [if_neg hin]
          rw [← hlast, if_neg hin]
      · refine ⟨_, SLIST_add_last_eq s a rest node fuel hc hfuel hdl, ?_, rfl⟩
        rw [memOrder, if_neg hl, hc.1]
        exact isChain_snoc rest a ⟨rfl, hc.2⟩ hnd hl

/-- Running a whole sequence of insertions on a well-formed nodup chain
succeeds given fuel covering the final length, preserves payloads, and
realizes the abstract `memberSeq`. -/
theorem addAll_chain {α : Type} :
    ∀ (ns : List Nat) (s : SList α) (l : List Nat) (fuel : Nat),
      isChain s.next s.head l → l.Nodup → l.length + ns.length ≤ fuel →
      ∃ s', addAll s ns fuel = some s' ∧
        isChain s'.next s'.head (memberSeq l ns) ∧
        (memberSeq l ns).Nodup ∧ s'.data = s.data := by
  intro ns
  induction ns with
  | nil =>
    intro s l fuel hc hnd _
    exact ⟨s, rfl, hc, hnd, rfl⟩
  | cons n rest ih =>
    intro s l fuel hc hnd hfuel
    obtain ⟨s1, hadd, hc1, hdata1⟩ :=
      SLIST_add_chain s l n fuel hc hnd (by omega)
    have hnd1 : (memOrder l n).Nodup := memOrder_nodup hnd n
    have hlen1 : (memOrder l n).length + rest.length ≤ fuel := by
      have := memOrder_length_le l n
      rw [List.length_cons] at hfuel
      omega
    obtain ⟨s2, hrun, hc2, hnd2, hdata2⟩ := ih s1 (memOrder l n) fuel hc1 hnd1 hlen1
    refine ⟨s2, ?_, hc2, hnd2, hdata2.trans hdata1⟩
    simp [addAll, hadd, hrun, memberSeq]

/-- Inserting pairwise fresh nodes appends them all, in order. -/
theorem memberSeq_append :
    ∀ (ns l : List Nat), ns.Nodup → (∀ n ∈ ns, n ∉ l) →
      memberSeq l ns = l ++ ns := by
  intro ns
  induction ns with
  | nil => intro l _ _; simp [memberSeq]
  | cons n rest ih =>
    intro l hnd hfresh
    have hn : n ∉ l := hfresh n (List.mem_cons_self n rest)
    rw [memberSeq, memOrder, if_neg hn,
      ih (l ++ [n]) (List.nodup_cons.mp hnd).2 ?_]
    · simp
    · intro m hm
      rw [List.mem_append, List.mem_singleton]
      push_neg
      exact ⟨hfresh m (List.mem_cons_of_mem n hm),
        fun h => (List.nodup_cons.mp hnd).1 (h ▸ hm)⟩

/-- The concrete heap `twoNodes` spells out the chain `[0, 1]`. -/
theorem twoNodes_chain : isChain twoNodes.next twoNodes.head [0, 1] :=
  ⟨rfl, rfl, rfl⟩

/-- The concrete heap `threeNodes` spells out the chain `[0, 1, 2]`. -/
theorem threeNodes_chain : isChain threeNodes.next threeNodes.head [0, 1, 2] :=
  ⟨rfl, rfl, rfl, rfl⟩

/-- The concrete heap `staleNode` spells out the chain `[0, 1]`; the stale
node `9` is not a member. -/
theorem staleNode_chain : isChain staleNode.next staleNode.head [0, 1] :=
  ⟨rfl, rfl, rfl⟩

/-- C7: traversal of a freshly created list (`SLIST_CREATE_LIST`, head
`NULL`) yields exactly zero elements — at every fuel, including fuel `0`,
so the loop body runs zero times. -/
theorem SLIST_create_empty_traversal {α : Type} (nx : Nat → Option Nat)
    (d : Nat → α) (fuel : Nat) :
    SLIST_FOR_EACH_NODE_PTR (SLIST_CREATE_LIST nx d).next
      (SLIST_CREATE_LIST nx d).head fuel = some [] :=
  forEach_none fuel

/-- C8: inserting any node into a list whose head is `NULL` makes that node
the sole head and sets its `next` to `NULL`; the resulting chain is exactly
the one-element chain of that node. -/
theorem SLIST_add_to_empty {α : Type} (s : SList α) (node fuel : Nat)
    (h : s.head = none) :
    ∃ s', SLIST_add s node fuel = some s' ∧ s'.head = some node ∧
      s'.next node = none ∧ isChain s'.next s'.head [node] := by
  refine ⟨_, SLIST_add_empty_eq s node fuel h, rfl, by simp, rfl, by simp [isChain]⟩

/-- Witness for C8 at a concrete input: inserting node `3` into the
empty-headed heap `emptyStaleHeap`. -/
theorem SLIST_add_to_empty_witness :
    ∃ s', SLIST_add emptyStaleHeap 3 5 = some s' ∧ s'.head = some 3 ∧
      s'.next 3 = none ∧ isChain s'.next s'.head [3] :=
  SLIST_add_to_empty emptyStaleHeap 3 5 rfl

/-- C3: inserting a node already present strictly before the tail is a
structural no-op — the state is returned unchanged, so the traversal
sequence (hence also the element count) is unchanged at every fuel. -/
theorem SLIST_add_dup_noop {α : Type} (s : SList α) (a node : Nat)
    (rest : List Nat) (fuel : Nat)
    (hc : isChain s.next s.head (a :: rest))
    (hmem : node ∈ (a :: rest).dropLast) (hfuel : rest.length < fuel) :
    ∃ s', SLIST_add s node fuel = some s' ∧
      ∀ f, SLIST_FOR_EACH_NODE_PTR s'.next s'.head f =
        SLIST_FOR_EACH_NODE_PTR s.next s.head f :=
  ⟨s, SLIST_add_found_eq s a rest node fuel hc hfuel hmem, fun _ => rfl⟩

/-- Witness for C3 at a concrete input: re-inserting node `0` (present
before the tail) into the chain `[0, 1]`. -/
theorem SLIST_add_dup_noop_witness :
    ∃ s', SLIST_add twoNodes 0 2 = some s' ∧
      ∀ f, SLIST_FOR_EACH_NODE_PTR s'.next s'.head f =
        SLIST_FOR_EACH_NODE_PTR twoNodes.next twoNodes.head f :=
  SLIST_add_dup_noop twoNodes 0 0 [1] 2 twoNodes_chain (by decide) (by decide)

/-- C9: the duplicate no-op path performs no write at all: when the node is
found strictly before the tail, `SLIST_add` returns the state literally
unchanged — in particular the argument node's own `next` field (and every
other field of every node) retains its prior value. -/
theorem SLIST_add_dup_no_write {α : Type} (s : SList α) (a node : Nat)
    (rest : List Nat) (fuel : Nat)
    (hc : isChain s.next s.head (a :: rest))
    (hmem : node ∈ (a :: rest).dropLast) (hfuel : rest.length < fuel) :
    SLIST_add s node fuel = some s :=
  SLIST_add_found_eq s a rest node fuel hc hfuel hmem

/-- Witness for C9 at a concrete input: re-inserting the middle node `1` of
the chain `[0, 1, 2]` returns the state untouched. -/
theorem SLIST_add_dup_no_write_witness :
    SLIST_add threeNodes 1 3 = some threeNodes :=
  SLIST_add_dup_no_write threeNodes 0 1 [1, 2] 3 threeNodes_chain
    (by decide) (by decide)

/-- C10: on every structure-changing insertion path — empty list, or node
not found strictly before the tail — the inserted node's `next` ends up
`NULL`, whatever it held before the call. -/
theorem SLIST_add_clears_next {α : Type} (s : SList α) (l : List Nat)
    (node fuel : Nat) (hc : isChain s.next s.head l)
    (hmem : node ∉ l.dropLast) (hfuel : l.length ≤ fuel) :
    ∃ s', SLIST_add s node fuel = some s' ∧ s'.next node = none := by
  match l with
  | [] => exact ⟨_, SLIST_add_empty_eq s node fuel hc, by simp⟩
  | a :: rest =>
    rw [List.length_cons] at hfuel
    exact ⟨_, SLIST_add_last_eq s a rest node fuel hc (by omega) hmem, by simp⟩

/-- Witness for C10 at a concrete input: appending node `9`, whose `next`
still points into the list from stale caller storage, clears it to `NULL`.
-/
theorem SLIST_add_clears_next_witness :
    staleNode.next 9 = some 0 ∧
    ∃ s', SLIST_add staleNode 9 2 = some s' ∧ s'.next 9 = none :=
  ⟨rfl, SLIST_add_clears_next staleNode [0, 1] 9 2 staleNode_chain
    (by decide) (by decide)⟩

/-- C6: a structure-changing insertion of a fresh node mutates the `next`
field of exactly one node already a member (the previous tail), mutates the
head only when the list was empty, and leaves every payload and every other
`next` field unchanged. -/
theorem SLIST_add_frame {α : Type} (s : SList α) (l : List Nat)
    (node fuel : Nat) (hc : isChain s.next s.head l) (hnode : node ∉ l)
    (hfuel : l.length ≤ fuel) :
    ∃ s', SLIST_add s node fuel = some s' ∧ s'.data = s.data ∧
      (l = [] → s'.head = some node ∧
        ∀ i, i ≠ node → s'.next i = s.next i) ∧
      (∀ a rest, l = a :: rest →
        s'.head = s.head ∧
        s'.next (lastFrom a rest) = some node ∧
        (∀ i, i ∈ l → i ≠ lastFrom a rest → s'.next i = s.next i) ∧
        (∀ i, i ≠ lastFrom a rest → i ≠ node → s'.next i = s.next i)) := by
  cases l with
  | nil =>
    refine ⟨_, SLIST_add_empty_eq s node fuel hc, rfl, ?_, ?_⟩
    · exact fun _ => ⟨rfl, fun i hi => by simp [if_neg hi]⟩
    · intro a rest h; cases h
  | cons a rest =>
    rw [List.length_cons] at hfuel
    have hdl : node ∉ (a :: rest).dropLast :=
      fun h => hnode (List.mem_of_mem_dropLast h)
    refine ⟨_, SLIST_add_last_eq s a rest node fuel hc (by omega) hdl,
      rfl, ?_, ?_⟩
    · intro h; cases h
    · intro b brest hb
      obtain ⟨rfl, rfl⟩ : a = b ∧ rest = brest := by
        injection hb with h1 h2; exact ⟨h1, h2⟩
      have htn : lastFrom a rest ≠ node :=
        fun h => hnode (h ▸ lastFrom_mem rest a)
      refine ⟨rfl, ?_, ?_, ?_⟩
      · simp [if_neg htn]
      · intro i hi hit
        have hin : i ≠ node := fun h => hnode (h ▸ hi)
        simp [if_neg hin, if_neg hit]
      · intro i hit hin
        simp [if_neg hin, if_neg hit]

/-- Witness for C6 at a concrete input: appending the fresh node `5` to the
chain `[0, 1]` rewires only the old tail `1`. -/
theorem SLIST_add_frame_witness :
    ∃ s', SLIST_add twoNodes 5 2 = some s' ∧ s'.data = twoNodes.data ∧
      (([0, 1] : List Nat) = [] → s'.head = some 5 ∧
        ∀ i, i ≠ 5 → s'.next i = twoNodes.next i) ∧
      (∀ a rest, ([0, 1] : List Nat) = a :: rest →
        s'.head = twoNodes.head ∧
        s'.next (lastFrom a rest) = some 5 ∧
        (∀ i, i ∈ ([0, 1] : List Nat) → i ≠ lastFrom a rest →
          s'.next i = twoNodes.next i) ∧
        (∀ i, i ≠ lastFrom a rest → i ≠ 5 → s'.next i = twoNodes.next i)) :=
  SLIST_add_frame twoNodes [0, 1] 5 2 twoNodes_chain (by decide) (by decide)

/-- C1 counterexample: inserting the current tail node `1` of the concrete
chain `[0, 1]` does NOT leave a self-referencing, cyclic list — the
resulting state has `next 1 = NULL` (not `some 1`) and traversal terminates
within two steps, yielding `[0, 1]` unchanged.  The trailing
`node->next = NULL` of `SLIST_add` clears the transient self-link. -/
theorem SLIST_add_tail_reinsert_cex :
    ∃ s', SLIST_add twoNodes 1 2 = some s' ∧
      s'.next 1 = none ∧ s'.next 1 ≠ some 1 ∧
      SLIST_FOR_EACH_NODE_PTR s'.next s'.head 2 = some [0, 1] :=
  ⟨_, rfl, rfl, by decide, rfl⟩

/-- C1 (amended): when the node passed to `SLIST_add` is the current tail,
the walk does reach it as the last node without detecting the duplicate and
briefly links it to itself, but the final unconditional `node->next = NULL`
immediately clears that self-link: the operation is a structural no-op (head,
every `next` pointer and every payload are unchanged) and traversal still
terminates, yielding the original chain. -/
theorem SLIST_add_tail_reinsert_noop {α : Type} (s : SList α) (a : Nat)
    (rest : List Nat) (fuel : Nat)
    (hc : isChain s.next s.head (a :: rest)) (hnd : (a :: rest).Nodup)
    (hfuel : rest.length < fuel) :
    ∃ s', SLIST_add s (lastFrom a rest) fuel = some s' ∧
      s'.head = s.head ∧ s'.data = s.data ∧
      (∀ i, s'.next i = s.next i) ∧
      SLIST_FOR_EACH_NODE_PTR s'.next s'.head (rest.length + 1) =
        some (a :: rest) := by
  have hdl := lastFrom_not_mem_dropLast rest a hnd
  refine ⟨_, SLIST_add_last_eq s a rest (lastFrom a rest) fuel hc hfuel hdl,
    rfl, rfl, ?_, ?_⟩
  · intro i
    by_cases hi : i = lastFrom a rest
    · subst hi
      rw [isChain_last_none rest a ⟨rfl, hc.2⟩]
      simp
    · simp [if_neg hi]
  · refine traverse_chain (a :: rest) _ _ ?_ (by simp)
    refine isChain_ext (fun i => ?_) (a :: rest) s.head hc
    by_cases hi : i = lastFrom a rest
    · subst hi
      rw [isChain_last_none rest a ⟨rfl, hc.2⟩]
      simp
    · simp [if_neg hi]

/-- Witness for the amended C1 at a concrete input: re-inserting the tail
node of the chain `[0, 1]`. -/
theorem SLIST_add_tail_reinsert_noop_witness :
    ∃ s', SLIST_add twoNodes (lastFrom 0 [1]) 2 = some s' ∧
      s'.head = twoNodes.head ∧ s'.data = twoNodes.data ∧
      (∀ i, s'.next i = twoNodes.next i) ∧
      SLIST_FOR_EACH_NODE_PTR s'.next s'.head ([1].length + 1) =
        some [0, 1] :=
  SLIST_add_tail_reinsert_noop twoNodes 0 [1] 2 twoNodes_chain
    (by decide) (by decide)

/-- C2: inserting N pairwise distinct nodes, in order, into a freshly
created list succeeds, and a traversal afterwards yields exactly those
nodes in insertion order; the number of yielded elements equals N. -/
theorem SLIST_add_fifo_traversal {α : Type} (nx : Nat → Option Nat)
    (d : Nat → α) (ns : List Nat) (fuel : Nat) (hnd : ns.Nodup)
    (hfuel : ns.length ≤ fuel) :
    ∃ s', addAll (SLIST_CREATE_LIST nx d) ns fuel = some s' ∧
      ∃ out, SLIST_FOR_EACH_NODE_PTR s'.next s'.head fuel = some out ∧
        out = ns ∧ out.length = ns.length := by
  obtain ⟨s', hrun, hchain, -, -⟩ :=
    addAll_chain ns (SLIST_CREATE_LIST nx d) [] fuel rfl List.nodup_nil
      (by simpa using hfuel)
  have hseq : memberSeq [] ns = ns := by
    rw [memberSeq_append ns [] hnd (fun n _ => List.not_mem_nil n)]
    simp
  rw [hseq] at hchain
  exact ⟨s', hrun, ns, traverse_chain ns s'.head fuel hchain hfuel, rfl, rfl⟩

/-- Witness for C2 at a concrete input: inserting `3, 1, 4` into a fresh
list and traversing. -/
theorem SLIST_add_fifo_traversal_witness :
    ∃ s', addAll (SLIST_CREATE_LIST (fun _ => none) (fun i => i)) [3, 1, 4] 3
        = some s' ∧
      ∃ out, SLIST_FOR_EACH_NODE_PTR s'.next s'.head 3 = some out ∧
        out = [3, 1, 4] ∧ out.length = ([3, 1, 4] : List Nat).length :=
  SLIST_add_fifo_traversal (fun _ => none) (fun i => i) [3, 1, 4] 3
    (by decide) (by decide)

/-- The abstract membership sequence grows by at most the number of
insertions. -/
theorem memberSeq_length_le :
    ∀ (ns l : List Nat), (memberSeq l ns).length ≤ l.length + ns.length := by
  intro ns
  induction ns with
  | nil => intro l; simp [memberSeq]
  | cons n rest ih =>
    intro l
    have h1 := ih (memOrder l n)
    have h2 := memOrder_length_le l n
    rw [memberSeq, List.length_cons]
    omega

/-- C4: every state reached from a freshly created list by any sequence of
`SLIST_add` calls is an acyclic chain: following `next` from the head
reaches `NULL` in exactly as many steps as there are members — the
traversal succeeds with fuel equal to the membership count. -/
theorem SLIST_reachable_acyclic {α : Type} (nx : Nat → Option Nat)
    (d : Nat → α) (ns : List Nat) (fuel : Nat) (hfuel : ns.length ≤ fuel) :
    ∃ s' members, addAll (SLIST_CREATE_LIST nx d) ns fuel = some s' ∧
      isChain s'.next s'.head members ∧
      SLIST_FOR_EACH_NODE_PTR s'.next s'.head members.length =
        some members := by
  obtain ⟨s', hrun, hchain, -, -⟩ :=
    addAll_chain ns (SLIST_CREATE_LIST nx d) [] fuel rfl List.nodup_nil
      (by simpa using hfuel)
  exact ⟨s', memberSeq [] ns, hrun, hchain,
    traverse_chain _ s'.head _ hchain (Nat.le_refl _)⟩

/-- Witness for C4 at a concrete input: an insertion sequence containing
duplicates and a tail re-insertion still yields an acyclic chain. -/
theorem SLIST_reachable_acyclic_witness :
    ∃ s' members,
      addAll (SLIST_CREATE_LIST (fun _ => none) (fun i => i)) [3, 1, 4, 1, 4] 5
        = some s' ∧
      isChain s'.next s'.head members ∧
      SLIST_FOR_EACH_NODE_PTR s'.next s'.head members.length =
        some members :=
  SLIST_reachable_acyclic (fun _ => none) (fun i => i) [3, 1, 4, 1, 4] 5
    (by decide)

/-- C5: every state reached from a freshly created list by any sequence of
`SLIST_add` calls satisfies identity uniqueness: the traversal yields each
node address at most once. -/
theorem SLIST_reachable_unique {α : Type} (nx : Nat → Option Nat)
    (d : Nat → α) (ns : List Nat) (fuel : Nat) (hfuel : ns.length ≤ fuel) :
    ∃ s' members, addAll (SLIST_CREATE_LIST nx d) ns fuel = some s' ∧
      SLIST_FOR_EACH_NODE_PTR s'.next s'.head fuel = some members ∧
      members.Nodup := by
  obtain ⟨s', hrun, hchain, hnd, -⟩ :=
    addAll_chain ns (SLIST_CREATE_LIST nx d) [] fuel rfl List.nodup_nil
      (by simpa using hfuel)
  have hlen : (memberSeq [] ns).length ≤ fuel :=
    Nat.le_trans (by simpa using memberSeq_length_le ns []) hfuel
  exact ⟨s', memberSeq [] ns, hrun,
    traverse_chain _ s'.head fuel hchain hlen, hnd⟩

/-- Witness for C5 at a concrete input: inserting the same node repeatedly
still yields a duplicate-free traversal. -/
theorem SLIST_reachable_unique_witness :
    ∃ s' members,
      addAll (SLIST_CREATE_LIST (fun _ => none) (fun i => i)) [2, 2, 7, 2] 4
        = some s' ∧
      SLIST_FOR_EACH_NODE_PTR s'.next s'.head 4 = some members ∧
      members.Nodup :=
  SLIST_reachable_unique (fun _ => none) (fun i => i) [2, 2, 7, 2] 4
    (by decide)

end Slist
